import Mathlib

/-!
Verification of the Token-Data-Processor detection-and-scoring pipeline.

The definitions below are a shallow embedding of the Python source:

* `ContractCodeAnalyzer._preprocess_code` (comment stripping) becomes
  `stripLineComments`, `stripBlockComments` and `preprocessCode` on `List Char`;
  the two `re.sub` calls (`//.*?$` with MULTILINE, then `/\x2a.*?\x2a/` with
  DOTALL) are modelled by their operational behaviour: a `//` deletes up to
  (excluding) the next newline, a `/\x2a` deletes through the nearest
  following closing delimiter when one exists, and otherwise nothing at
  that position is removed (the regex cannot match without a closing
  delimiter, so `re.sub` leaves the text as is).
* the position-resolution logic of `STE0101_1.analyze` becomes `resolveLine`;
  the line-number formulas of `STE0101_1` (`count of CRLF + 1`) and of
  `STE0104` (`count of LF + count of CRLF + 1`) become `lineNumber0101`
  and `lineNumber0104`.
* the `_calculate_score` methods of `STE0101_1`, `STE0101_3` and `STE0103`
  become `calcScore0101_1`, `calcScore0101_3` and `calcScore0103`; match
  scores (Python floats) are modelled as rationals.
* `ContractCodeAnalyzer._get_risk_level` becomes `getRiskLevel`, and the
  aggregation loop of `ContractCodeAnalyzer.analyze` becomes `steStep` /
  `analyzeFold` / `overallScore`, with a detector run modelled as
  `Except String Rat` (a returned score, or a raised exception message).
* `ContractAnalyzer._merge_duplicate_findings` becomes
  `mergeDuplicateFindings` over an insertion-ordered association list,
  which is how a Python dict behaves under iteration.
-/

/-- Count of occurrences of the LF character, as in Python `s.count of backslash-n`. -/
def countNL (l : List Char) : Nat := l.count '\n'

/-- Count of non-overlapping occurrences of the two-character CRLF sequence,
as in Python `s.count` on the string CR LF. -/
def countCRLF : List Char → Nat
  | '\r' :: '\n' :: rest => countCRLF rest + 1
  | _ :: rest => countCRLF rest
  | [] => 0

/-- Number of physical lines of a text: LF count plus one. -/
def lineCount (l : List Char) : Nat := countNL l + 1

/-- The 1-based line number of a character offset in a text whose lines are
terminated by LF (or CRLF): one plus the number of LF characters before it. -/
def trueLineAt (l : List Char) (pos : Nat) : Nat := countNL (l.take pos) + 1

/-- Suffix of the input starting at the first LF, or `[]` when there is none.
Used to model the extent of a `//.*?$` match: the lazy dot cannot cross a
newline and the MULTILINE end anchor holds exactly before each LF. -/
def dropToNL : List Char → List Char
  | [] => []
  | c :: rest => if c = '\n' then c :: rest else dropToNL rest

theorem dropToNL_length_le (l : List Char) : (dropToNL l).length ≤ l.length := by
  induction l with
  | nil => simp [dropToNL]
  | cons c rest ih =>
      simp only [dropToNL]
      split
      · exact Nat.le_refl _
      · exact Nat.le_trans ih (Nat.le_succ _)

/-- Worker for `stripLineComments`, with a fuel argument so that the
recursion is structural (one unit of fuel is spent per removed or kept
character, so fuel equal to the input length always suffices; with exhausted
fuel the rest of the input is returned unchanged, a case never reached from
the wrapper). -/
def slcFuel : Nat → List Char → List Char
  | 0, l => l
  | _ + 1, [] => []
  | _ + 1, [c] => [c]
  | fuel + 1, c :: d :: rest =>
      if c = '/' ∧ d = '/' then slcFuel fuel (dropToNL rest)
      else c :: slcFuel fuel (d :: rest)

/-- Embedding of the first `re.sub` of `_preprocess_code`: every `//` and the
characters after it up to (excluding) the next LF are removed. -/
def stripLineComments (l : List Char) : List Char := slcFuel l.length l

/-- Suffix of the input just after the first closing block-comment delimiter
(an asterisk followed by a slash), or `none` when no such delimiter occurs. -/
def afterClose : List Char → Option (List Char)
  | [] => none
  | [_] => none
  | c :: d :: rest =>
      if c = '*' ∧ d = '/' then some rest else afterClose (d :: rest)

/-- Worker for `stripBlockComments`, again with a fuel argument (fuel equal
to the input length always suffices). -/
def sbcFuel : Nat → List Char → List Char
  | 0, l => l
  | _ + 1, [] => []
  | _ + 1, [c] => [c]
  | fuel + 1, c :: d :: rest =>
      if c = '/' ∧ d = '*' then
        match afterClose rest with
        | some rest2 => sbcFuel fuel rest2
        | none => c :: sbcFuel fuel (d :: rest)
      else c :: sbcFuel fuel (d :: rest)

/-- Embedding of the second `re.sub` of `_preprocess_code` (DOTALL block
comments): at each opening delimiter the engine removes through the nearest
following closing delimiter; when no closing delimiter follows, the pattern
cannot match there, so `re.sub` keeps the characters. -/
def stripBlockComments (l : List Char) : List Char := sbcFuel l.length l

/-- Embedding of `ContractCodeAnalyzer._preprocess_code`: line comments are
removed first, then block comments. -/
def preprocessCode (l : List Char) : List Char :=
  stripBlockComments (stripLineComments l)

/-- Index of the first occurrence of `needle` in `hay`, as in Python
`str.find` (which returns -1, modelled here by `none`). -/
def findSub (needle : List Char) : List Char → Option Nat
  | [] => if needle.isPrefixOf ([] : List Char) then some 0 else none
  | c :: rest =>
      if needle.isPrefixOf (c :: rest) then some 0
      else (findSub needle rest).map (fun i => i + 1)

/-- Python slice `l[a:b]` for `a ≤ b` (both clamped to the length). -/
def pySlice (l : List Char) (a b : Nat) : List Char := (l.drop a).take (b - a)

/-- Line-number formula of `STE0101_1` (also `STE0101_2`, `STE0101_3`,
`STE0103`): Python `text_before_match.count` of the CRLF sequence, plus 1. -/
def lineNumber0101 (before : List Char) : Nat := countCRLF before + 1

/-- Line-number formula of `STE0104`: Python
`text_before_match.count` of LF plus `text_before_match.count` of CRLF,
plus 1. -/
def lineNumber0104 (before : List Char) : Nat :=
  countNL before + countCRLF before + 1

/-- Embedding of the position-resolution logic of `STE0101_1.analyze`
(lines 79-113 of the source): `code` is the comment-stripped text the regex
ran on, `orig` the text used for line numbers (the caller passes the
comment-stripped text itself), and `s`, `e` the match span.  Thirty
characters of context on each side plus the first hundred characters of the
match are searched for in `orig`; on failure the match text alone is
searched for; on failure again the sentinel line -1 is returned.  A found
offset is converted to a line number by counting CRLF sequences before it. -/
def resolveLine (code orig : List Char) (s e : Nat) : Int :=
  let ctxBefore := pySlice code (s - 30) s
  let fullMatch := pySlice code s e
  let ctxAfter := pySlice code e (e + 30)
  let searchWithCtx := ctxBefore ++ fullMatch.take 100 ++ ctxAfter
  match findSub searchWithCtx orig with
  | some p => Int.ofNat (lineNumber0101 (orig.take (p + ctxBefore.length)))
  | none =>
      match findSub (fullMatch.take 100) orig with
      | some p => Int.ofNat (lineNumber0101 (orig.take p))
      | none => -1

example : preprocessCode ("ab // c\nd".toList) = ("ab \nd".toList) := by decide
example : preprocessCode ("a/*x*/b".toList) = ("ab".toList) := by decide
example : preprocessCode ("a\n/*x\ny*/\nb".toList) = ("a\n\nb".toList) := by decide
example : preprocessCode ("a /* b".toList) = ("a /* b".toList) := by decide
example : resolveLine ("abc\ndef\n".toList) ("abc\ndef\n".toList) 4 7 = 1 := by decide
example : trueLineAt ("abc\ndef\n".toList) 4 = 2 := by decide

theorem afterClose_cons_none {c : Char} {l : List Char}
    (h : afterClose (c :: l) = none) : afterClose l = none := by
  cases l with
  | nil => rfl
  | cons d rest =>
      rw [afterClose] at h
      split at h
      · exact absurd h (by simp)
      · exact h

/-- When the text contains no closing block-comment delimiter at all, the
block-comment pass keeps every character: without a closing delimiter the
DOTALL pattern cannot match anywhere. -/
theorem sbcFuel_of_no_close :
    ∀ (fuel : Nat) (l : List Char), afterClose l = none → sbcFuel fuel l = l := by
  intro fuel
  induction fuel with
  | zero => intro l _; rfl
  | succ n ih =>
      intro l h
      match l with
      | [] => rfl
      | [c] => rfl
      | c :: d :: rest =>
          rw [sbcFuel]
          have hrest : afterClose rest = none :=
            afterClose_cons_none (afterClose_cons_none h)
          split
          · rw [hrest]
            rw [ih (d :: rest) (afterClose_cons_none h)]
          · rw [ih (d :: rest) (afterClose_cons_none h)]

/-- Insert a value into a weakly descending list, keeping it descending.
Together with `sortDescQ` this models Python `sorted(ws, reverse=True)`. -/
def insertDescQ (a : ℚ) : List ℚ → List ℚ
  | [] => [a]
  | b :: rest => if b < a then a :: b :: rest else b :: insertDescQ a rest

/-- Sort a list of rationals into weakly descending order. -/
def sortDescQ : List ℚ → List ℚ
  | [] => []
  | a :: rest => insertDescQ a (sortDescQ rest)

/-- Python `max(xs)` over a non-empty list (the `[]` case is arbitrary:
the callers guard against an empty match list first). -/
def listMax : List ℚ → ℚ
  | [] => 0
  | a :: rest => rest.foldl max a

/-- Embedding of `STE0101_1._calculate_score` (method `weighted_max`,
`decay_factor` 0.2): sort the match scores descending, add the top score in
full and each further score multiplied by the decay factor, then clamp to
100.  An empty match list scores 0. -/
def calcScore0101_1 (ws : List ℚ) : ℚ :=
  if ws = [] then 0
  else
    match sortDescQ ws with
    | [] => 0
    | top :: rest => min 100 (top + (1 / 5) * rest.sum)

/-- Embedding of `STE0101_3._calculate_score` (also tagged `weighted_max`):
it returns the clamped maximum match score and never applies a decay term
(the source comment reads: for now, just return the max score). -/
def calcScore0101_3 (ws : List ℚ) : ℚ :=
  if ws = [] then 0 else min 100 (listMax ws)

/-- The harmonic accumulation loop of `STE0103._calculate_score`: the i-th
element (0-based, continuing from the starting index `i`) contributes its
value divided by `i + 1`. -/
def harmonicSum : List ℚ → Nat → ℚ
  | [], _ => 0
  | w :: rest, i => w * (1 / ((i : ℚ) + 1)) + harmonicSum rest (i + 1)

/-- Embedding of `STE0103._calculate_score` (method `risk_accumulation`,
`base_score` 20, `max_score` 100): on a non-empty match list, start from the
base score, add the distinct match scores sorted descending with harmonic
damping, and clamp to the maximum score.  An empty match list scores 0. -/
def calcScore0103 (ws : List ℚ) : ℚ :=
  if ws = [] then 0
  else min 100 (20 + harmonicSum (sortDescQ ws.dedup) 0)

/-- The `risk_levels` table built in `ContractCodeAnalyzer.__init__`:
closed integer-endpoint bands in insertion order. -/
def riskLevels : List ((ℚ × ℚ) × String) :=
  [((0, 20), "LOW_RISK"),
   ((21, 40), "MEDIUM_RISK"),
   ((41, 60), "HIGH_RISK"),
   ((61, 80), "VERY_HIGH_RISK"),
   ((81, 100), "CRITICAL_RISK")]

/-- Embedding of `ContractCodeAnalyzer._get_risk_level`: return the label of
the first band whose closed interval contains the score, else UNKNOWN. -/
def getRiskLevel (score : ℚ) : String :=
  match riskLevels.find? (fun b => decide (b.1.1 ≤ score ∧ score ≤ b.1.2)) with
  | some b => b.2
  | none => "UNKNOWN"

/-- Round-half-to-even to an integer, the tie rule of Python `round`. -/
def roundHalfEven (x : ℚ) : ℤ :=
  let f := ⌊x⌋
  if x - f < 1 / 2 then f
  else if 1 / 2 < x - f then f + 1
  else if f % 2 = 0 then f else f + 1

/-- Python `round(x, 2)`. -/
def round2 (x : ℚ) : ℚ := (roundHalfEven (x * 100) : ℚ) / 100

/-- One detector entry in `ste_results`: its score and, when the detector
raised, the attached error message.  (The other report fields play no role
in the aggregation.) -/
structure SteResult where
  score : ℚ
  errMsg : Option String
deriving DecidableEq

/-- The report entry the `ContractCodeAnalyzer.analyze` loop appends for one
detector run: a returned report keeps its score, a raised exception is
recorded as score 0 with the message attached. -/
def reportOf (o : Except String ℚ) : SteResult :=
  match o with
  | Except.ok s => { score := s, errMsg := none }
  | Except.error e => { score := 0, errMsg := some e }

/-- One iteration of the `ContractCodeAnalyzer.analyze` loop over the
accumulator (results list, total score, maximum individual score): on
success the score is appended and added to both accumulators, on an
exception the degraded report is appended and the accumulators are left
unchanged. -/
def steStep (acc : List SteResult × ℚ × ℚ) (o : Except String ℚ) :
    List SteResult × ℚ × ℚ :=
  match o with
  | Except.ok s => (acc.1 ++ [{ score := s, errMsg := none }], acc.2.1 + s, max acc.2.2 s)
  | Except.error e => (acc.1 ++ [{ score := 0, errMsg := some e }], acc.2.1, acc.2.2)

/-- The whole detector loop of `ContractCodeAnalyzer.analyze`, starting from
an empty results list, total 0 and maximum 0. -/
def analyzeFold (outcomes : List (Except String ℚ)) : List SteResult × ℚ × ℚ :=
  outcomes.foldl steStep ([], 0, 0)

/-- The `ste_results` list of the report. -/
def steResults (outcomes : List (Except String ℚ)) : List SteResult :=
  (analyzeFold outcomes).1

/-- The `avg_score` of `ContractCodeAnalyzer.analyze`: the accumulated total
divided by the number of analyzers (0 when there are none). -/
def avgScore (outcomes : List (Except String ℚ)) : ℚ :=
  if outcomes.length = 0 then 0
  else (analyzeFold outcomes).2.1 / (outcomes.length : ℚ)

/-- The `overall_score` of `ContractCodeAnalyzer.analyze`:
max individual score times 0.6 plus average score times 0.4. -/
def overallScore (outcomes : List (Except String ℚ)) : ℚ :=
  (analyzeFold outcomes).2.2 * (3 / 5) + avgScore outcomes * (2 / 5)

/-- The `overall_score` field of the returned report: rounded to 2 decimals. -/
def reportedOverallScore (outcomes : List (Except String ℚ)) : ℚ :=
  round2 (overallScore outcomes)

/-- The `overall_risk` field of the returned report: the risk level of the
unrounded overall score. -/
def overallRisk (outcomes : List (Except String ℚ)) : String :=
  getRiskLevel (overallScore outcomes)


theorem le_foldl_max (a : ℚ) (l : List ℚ) : a ≤ l.foldl max a := by
  induction l generalizing a with
  | nil => exact le_refl a
  | cons b t ih => exact le_trans (le_max_left a b) (ih (max a b))

theorem mem_le_foldl_max {x : ℚ} {l : List ℚ} (hx : x ∈ l) (a : ℚ) :
    x ≤ l.foldl max a := by
  induction l generalizing a with
  | nil => cases hx
  | cons b t ih =>
      rcases List.mem_cons.mp hx with h | h
      · subst h
        exact le_trans (le_max_right a x) (le_foldl_max _ t)
      · exact ih h (max a b)

theorem foldl_max_mem (a : ℚ) (l : List ℚ) :
    l.foldl max a = a ∨ l.foldl max a ∈ l := by
  induction l generalizing a with
  | nil => exact Or.inl rfl
  | cons b t ih =>
      rcases ih (max a b) with h | h
      · rcases max_choice a b with hm | hm
        · exact Or.inl (by rw [List.foldl_cons, h, hm])
        · exact Or.inr (by rw [List.foldl_cons, h, hm]; exact List.mem_cons_self b t)
      · exact Or.inr (List.mem_cons_of_mem b h)

theorem listMax_mem {l : List ℚ} (h : l ≠ []) : listMax l ∈ l := by
  match l with
  | [] => exact absurd rfl h
  | a :: t =>
      rcases foldl_max_mem a t with h2 | h2
      · rw [listMax, h2]; exact List.mem_cons_self a t
      · exact List.mem_cons_of_mem a h2

theorem le_listMax {x : ℚ} {l : List ℚ} (hx : x ∈ l) : x ≤ listMax l := by
  match l with
  | [] => cases hx
  | a :: t =>
      rcases List.mem_cons.mp hx with h | h
      · subst h; exact le_foldl_max x t
      · exact mem_le_foldl_max h a

theorem insertDescQ_perm (a : ℚ) (l : List ℚ) : List.Perm (insertDescQ a l) (a :: l) := by
  induction l with
  | nil => exact List.Perm.refl _
  | cons b t ih =>
      rw [insertDescQ]
      split
      · exact List.Perm.refl _
      · exact List.Perm.trans (List.Perm.cons b ih) (List.Perm.swap a b t)

theorem sortDescQ_perm (l : List ℚ) : List.Perm (sortDescQ l) l := by
  induction l with
  | nil => exact List.Perm.refl _
  | cons a t ih =>
      exact List.Perm.trans (insertDescQ_perm a (sortDescQ t)) (List.Perm.cons a ih)

theorem insertDescQ_sorted {a : ℚ} {l : List ℚ}
    (h : l.Sorted (· ≥ ·)) : (insertDescQ a l).Sorted (· ≥ ·) := by
  induction l with
  | nil => simp [insertDescQ]
  | cons b t ih =>
      rw [insertDescQ]
      rcases List.sorted_cons.mp h with ⟨hb, ht⟩
      split
      · rename_i hlt
        refine List.sorted_cons.mpr ⟨?_, h⟩
        intro x hx
        rcases List.mem_cons.mp hx with h2 | h2
        · subst h2; exact le_of_lt hlt
        · exact le_trans (hb x h2) (le_of_lt hlt)
      · rename_i hnlt
        refine List.sorted_cons.mpr ⟨?_, ih ht⟩
        intro x hx
        rcases List.mem_cons.mp ((insertDescQ_perm a t).mem_iff.mp hx) with h2 | h2
        · subst h2; exact le_of_not_lt hnlt
        · exact hb x h2

theorem sortDescQ_sorted (l : List ℚ) : (sortDescQ l).Sorted (· ≥ ·) := by
  induction l with
  | nil => simp [sortDescQ]
  | cons a t ih => exact insertDescQ_sorted ih


theorem sortDescQ_head_sum {ws : List ℚ} {top : ℚ} {rest : List ℚ}
    (h : sortDescQ ws = top :: rest) :
    top = listMax ws ∧ rest.sum = ws.sum - top := by
  have hperm : List.Perm (top :: rest) ws := by rw [← h]; exact sortDescQ_perm ws
  have hsum : top + rest.sum = ws.sum := by
    have := hperm.sum_eq
    rwa [List.sum_cons] at this
  have hsorted : (top :: rest).Sorted (· ≥ ·) := by rw [← h]; exact sortDescQ_sorted ws
  have htopmem : top ∈ ws := hperm.mem_iff.mp (List.mem_cons_self top rest)
  have htopmax : ∀ x ∈ ws, x ≤ top := by
    intro x hx
    rcases List.mem_cons.mp (hperm.mem_iff.mpr hx) with h2 | h2
    · exact le_of_eq h2
    · exact (List.sorted_cons.mp hsorted).1 x h2
  have hne : ws ≠ [] := by
    intro h2
    rw [h2] at htopmem
    cases htopmem
  constructor
  · exact le_antisymm (le_listMax htopmem) (htopmax _ (listMax_mem hne))
  · linarith

/-- C6 counterexample: on the match scores 60 and 40 the two detectors tagged
`weighted_max` disagree: `STE0101_1` returns 60 + 0.2·40 = 68 while
`STE0101_3` returns 60, so the decay formula is not reproduced bit-for-bit
by every detector using this strategy. -/
theorem weightedMax_not_shared_counterexample :
    calcScore0101_1 [60, 40] = 68 ∧ calcScore0101_3 [60, 40] = 60 ∧
      calcScore0101_1 [60, 40] ≠ calcScore0101_3 [60, 40] := by
  refine ⟨?_, ?_, ?_⟩
  · rw [calcScore0101_1, if_neg (by simp)]
    norm_num [sortDescQ, insertDescQ, min_def]
  · rw [calcScore0101_3, if_neg (by simp)]
    norm_num [listMax, min_def]
  · rw [calcScore0101_1, if_neg (by simp), calcScore0101_3, if_neg (by simp)]
    norm_num [sortDescQ, insertDescQ, listMax, min_def]

/-- C6 (amended): on every non-empty match list, the `STE0101_1`
`weighted_max` scorer returns the 100-clamp of (largest weight + 0.2 times
the sum of the remaining weights), while `STE0101_3`, although tagged with
the same `weighted_max` method, ignores the decay term and returns the
100-clamp of the largest weight alone. -/
theorem weightedMax_scores (ws : List ℚ) (h : ws ≠ []) :
    calcScore0101_1 ws = min 100 (listMax ws + (1 / 5) * (ws.sum - listMax ws))
      ∧ calcScore0101_3 ws = min 100 (listMax ws) := by
  constructor
  · rw [calcScore0101_1, if_neg h]
    cases hs : sortDescQ ws with
    | nil =>
        have hp := sortDescQ_perm ws
        rw [hs] at hp
        exact absurd hp.symm.eq_nil h
    | cons top rest =>
        rcases sortDescQ_head_sum hs with ⟨htop, hrest⟩
        show min 100 (top + (1 / 5) * rest.sum) = _
        rw [hrest, htop]
  · rw [calcScore0101_3, if_neg h]

/-- C6 witness: the amended statement evaluated on the match scores 60, 40. -/
theorem weightedMax_scores_witness :
    calcScore0101_1 [60, 40] = min 100 (listMax [60, 40] + (1 / 5) * (List.sum [60, 40] - listMax [60, 40]))
      ∧ calcScore0101_3 [60, 40] = min 100 (listMax [60, 40]) :=
  weightedMax_scores [60, 40] (by simp)

theorem sortDesc_dedup_eq {ws d : List ℚ} (hd : d.Sorted (· > ·))
    (hmem : ∀ w, w ∈ d ↔ w ∈ ws) : sortDescQ ws.dedup = d := by
  have hnd : d.Nodup := hd.nodup
  have hns : (sortDescQ ws.dedup).Nodup :=
    ((sortDescQ_perm ws.dedup).nodup_iff).mpr (List.nodup_dedup ws)
  have hp : List.Perm (sortDescQ ws.dedup) d := by
    refine (List.perm_ext_iff_of_nodup hns hnd).mpr ?_
    intro a
    rw [(sortDescQ_perm ws.dedup).mem_iff, List.mem_dedup, hmem]
  exact List.eq_of_perm_of_sorted hp (sortDescQ_sorted _) (hd.imp fun h => le_of_lt h)

theorem sortDesc_dedup_congr {ws1 ws2 : List ℚ}
    (h : List.Perm ws1.dedup ws2.dedup) : sortDescQ ws1.dedup = sortDescQ ws2.dedup :=
  List.eq_of_perm_of_sorted
    ((sortDescQ_perm _).trans (h.trans (sortDescQ_perm _).symm))
    (sortDescQ_sorted _) (sortDescQ_sorted _)

/-- C7: on every non-empty match list, the `STE0103` `risk_accumulation`
scorer returns min(100, 20 + Σ wᵢ/(i+1)) where w₀ > w₁ > ... are the
distinct match weights sorted descending (any list `d` with those two
properties); consequently the score is invariant under permutation of the
match list, and a duplicate occurrence of an already present weight leaves
the score unchanged (equal weights contribute once, not twice). -/
theorem riskAccumulation_distinct (ws d : List ℚ) (hne : ws ≠ [])
    (hd : d.Sorted (· > ·)) (hmem : ∀ w, w ∈ d ↔ w ∈ ws) :
    calcScore0103 ws = min 100 (20 + harmonicSum d 0)
      ∧ (∀ ws2, List.Perm ws ws2 → calcScore0103 ws = calcScore0103 ws2)
      ∧ (∀ w, w ∈ ws → calcScore0103 (w :: ws) = calcScore0103 ws) := by
  refine ⟨?_, ?_, ?_⟩
  · rw [calcScore0103, if_neg hne, sortDesc_dedup_eq hd hmem]
  · intro ws2 hp
    have hne2 : ws2 ≠ [] := by
      intro h2
      rw [h2] at hp
      exact hne hp.eq_nil
    rw [calcScore0103, if_neg hne, calcScore0103, if_neg hne2,
      sortDesc_dedup_congr hp.dedup]
  · intro w hw
    have hp : List.Perm ((w :: ws).dedup) (ws.dedup) := by
      refine (List.perm_ext_iff_of_nodup (List.nodup_dedup _) (List.nodup_dedup _)).mpr ?_
      intro a
      rw [List.mem_dedup, List.mem_dedup, List.mem_cons]
      constructor
      · intro h2
        rcases h2 with h2 | h2
        · exact h2 ▸ hw
        · exact h2
      · exact Or.inr
    rw [calcScore0103, if_neg (List.cons_ne_nil w ws), calcScore0103, if_neg hne,
      sortDesc_dedup_congr hp]

/-- C7 witness: the statement evaluated on the match scores 40, 40, 20 with
distinct descending weights 40, 20: the duplicate 40 contributes once. -/
theorem riskAccumulation_distinct_witness :
    calcScore0103 [40, 40, 20] = min 100 (20 + harmonicSum [40, 20] 0) :=
  (riskAccumulation_distinct [40, 40, 20] [40, 20] (by simp)
    (by norm_num [List.sorted_cons])
    (by intro w; simp only [List.mem_cons, List.not_mem_nil, or_false]; tauto)).1

theorem foldl_steStep (outcomes : List (Except String ℚ)) :
    ∀ (rs : List SteResult) (tot mx : ℚ), 0 ≤ mx →
      outcomes.foldl steStep (rs, tot, mx)
        = (rs ++ outcomes.map reportOf,
           tot + (outcomes.map fun o => (reportOf o).score).sum,
           (outcomes.map fun o => (reportOf o).score).foldl max mx) := by
  induction outcomes with
  | nil => intro rs tot mx _; simp
  | cons o rest ih =>
      intro rs tot mx hmx
      cases o with
      | ok s =>
          have h1 : reportOf (Except.ok s) = { score := s, errMsg := none } := rfl
          have h2 : steStep (rs, tot, mx) (Except.ok s)
              = (rs ++ [{ score := s, errMsg := none }], tot + s, max mx s) := rfl
          simp only [List.foldl_cons, List.map_cons, h1, h2]
          rw [ih _ _ _ (le_trans hmx (le_max_left mx s))]
          simp [List.append_assoc, add_assoc]
      | error e =>
          have h1 : reportOf (Except.error e) = { score := 0, errMsg := some e } := rfl
          have h2 : steStep (rs, tot, mx) (Except.error e)
              = (rs ++ [{ score := 0, errMsg := some e }], tot, mx) := rfl
          simp only [List.foldl_cons, List.map_cons, h1, h2]
          rw [ih _ _ _ hmx]
          simp [List.append_assoc, max_eq_left hmx]

theorem analyzeFold_eq (outcomes : List (Except String ℚ)) :
    analyzeFold outcomes
      = (outcomes.map reportOf,
         (outcomes.map fun o => (reportOf o).score).sum,
         (outcomes.map fun o => (reportOf o).score).foldl max 0) := by
  rw [analyzeFold, foldl_steStep outcomes [] 0 0 (le_refl 0)]
  simp

theorem steResults_eq (outcomes : List (Except String ℚ)) :
    steResults outcomes = outcomes.map reportOf := by
  rw [steResults, analyzeFold_eq]

theorem overallScore_eq (outcomes : List (Except String ℚ)) :
    overallScore outcomes
      = ((steResults outcomes).map SteResult.score).foldl max 0 * (3 / 5)
        + (((steResults outcomes).map SteResult.score).sum / (outcomes.length : ℚ)) * (2 / 5) := by
  rw [overallScore, avgScore, steResults_eq, analyzeFold_eq, List.map_map]
  by_cases h : outcomes.length = 0
  · rcases List.eq_nil_of_length_eq_zero h with rfl
    simp
  · rw [if_neg h]
    rfl

/-- C4: a detector that raises degrades only its own report: the results
list still has one entry per detector outcome, in order, a raising detector
being recorded with score 0 and its error message attached, and the overall
score still counts that zero score inside both the maximum and the average
(whose divisor is the total number of detectors). -/
theorem detectorFailure_isolated (outcomes : List (Except String ℚ)) :
    steResults outcomes = outcomes.map reportOf
      ∧ (∀ e, reportOf (Except.error e) = { score := 0, errMsg := some e })
      ∧ overallScore outcomes
          = ((steResults outcomes).map SteResult.score).foldl max 0 * (3 / 5)
            + (((steResults outcomes).map SteResult.score).sum / (outcomes.length : ℚ)) * (2 / 5) :=
  ⟨steResults_eq outcomes, fun _ => rfl, overallScore_eq outcomes⟩

theorem roundHalfEven_bounds {y : ℚ} {n : ℤ} (h0 : 0 ≤ y) (h1 : y ≤ (n : ℚ)) :
    0 ≤ roundHalfEven y ∧ roundHalfEven y ≤ n := by
  have hf0 : 0 ≤ ⌊y⌋ := Int.le_floor.mpr (by exact_mod_cast h0)
  have hfn : ⌊y⌋ ≤ n := by
    have := Int.floor_le_floor h1
    rwa [Int.floor_intCast] at this
  have hfy : (⌊y⌋ : ℚ) ≤ y := Int.floor_le y
  rw [roundHalfEven]
  split_ifs with hc1 hc2 hc3
  · exact ⟨hf0, hfn⟩
  · refine ⟨by omega, ?_⟩
    have : (⌊y⌋ : ℚ) < (n : ℚ) := by linarith
    have : ⌊y⌋ < n := by exact_mod_cast this
    omega
  · exact ⟨hf0, hfn⟩
  · refine ⟨by omega, ?_⟩
    have heq : y - ⌊y⌋ = 1 / 2 := le_antisymm (le_of_not_lt hc2) (le_of_not_lt hc1)
    have : (⌊y⌋ : ℚ) < (n : ℚ) := by linarith
    have : ⌊y⌋ < n := by exact_mod_cast this
    omega

theorem round2_bounds {x : ℚ} (h0 : 0 ≤ x) (h1 : x ≤ 100) :
    0 ≤ round2 x ∧ round2 x ≤ 100 := by
  have hb : 0 ≤ roundHalfEven (x * 100) ∧ roundHalfEven (x * 100) ≤ (10000 : ℤ) := by
    refine roundHalfEven_bounds (by linarith) ?_
    push_cast
    linarith
  rw [round2]
  constructor
  · have : (0 : ℚ) ≤ (roundHalfEven (x * 100) : ℚ) := by exact_mod_cast hb.1
    positivity
  · have : (roundHalfEven (x * 100) : ℚ) ≤ 10000 := by exact_mod_cast hb.2
    linarith

theorem foldl_max_le {c : ℚ} {l : List ℚ} (hl : ∀ x ∈ l, x ≤ c) :
    ∀ {a : ℚ}, a ≤ c → l.foldl max a ≤ c := by
  induction l with
  | nil => intro a ha; exact ha
  | cons b t ih =>
      intro a ha
      exact ih (fun x hx => hl x (List.mem_cons_of_mem b hx))
        (max_le ha (hl b (List.mem_cons_self b t)))

theorem reportOf_score_bounds {outcomes : List (Except String ℚ)}
    (hb : ∀ s : ℚ, Except.ok s ∈ outcomes → 0 ≤ s ∧ s ≤ 100) :
    ∀ x ∈ (steResults outcomes).map SteResult.score, 0 ≤ x ∧ x ≤ 100 := by
  intro x hx
  rw [steResults_eq, List.map_map] at hx
  rcases List.mem_map.mp hx with ⟨o, ho, rfl⟩
  cases o with
  | ok s => exact hb s ho
  | error e =>
      have h0 : (SteResult.score ∘ reportOf) (Except.error e) = 0 := rfl
      rw [h0]
      norm_num

/-- C5: the reported `overall_score` equals max(detector scores)·0.6 +
average(detector scores, divided by the number of detectors)·0.4 rounded to
2 decimals, and it lies within [0, 100] whenever every detector score lies
within [0, 100]. -/
theorem overallScore_formula_bounds (outcomes : List (Except String ℚ))
    (hb : ∀ s : ℚ, Except.ok s ∈ outcomes → 0 ≤ s ∧ s ≤ 100) :
    reportedOverallScore outcomes
        = round2 (((steResults outcomes).map SteResult.score).foldl max 0 * (3 / 5)
            + (((steResults outcomes).map SteResult.score).sum / (outcomes.length : ℚ)) * (2 / 5))
      ∧ 0 ≤ reportedOverallScore outcomes ∧ reportedOverallScore outcomes ≤ 100 := by
  have hscores := reportOf_score_bounds hb
  set scores := (steResults outcomes).map SteResult.score with hsc
  have hov : overallScore outcomes
      = scores.foldl max 0 * (3 / 5) + (scores.sum / (outcomes.length : ℚ)) * (2 / 5) :=
    overallScore_eq outcomes
  have hmax0 : 0 ≤ scores.foldl max 0 := le_foldl_max 0 scores
  have hmax100 : scores.foldl max 0 ≤ 100 :=
    foldl_max_le (fun x hx => (hscores x hx).2) (by norm_num)
  have hsum0 : 0 ≤ scores.sum := List.sum_nonneg fun x hx => (hscores x hx).1
  have hsum : scores.sum ≤ (scores.length : ℚ) * 100 := by
    have := List.sum_le_card_nsmul scores 100 fun x hx => (hscores x hx).2
    rwa [nsmul_eq_mul] at this
  have hlen : scores.length = outcomes.length := by
    rw [hsc, steResults_eq]
    simp
  have havg0 : 0 ≤ scores.sum / (outcomes.length : ℚ) :=
    div_nonneg hsum0 (Nat.cast_nonneg _)
  have havg100 : scores.sum / (outcomes.length : ℚ) ≤ 100 := by
    rcases Nat.eq_zero_or_pos outcomes.length with h | h
    · rw [h]
      norm_num
    · rw [div_le_iff₀ (by exact_mod_cast h : (0 : ℚ) < (outcomes.length : ℚ))]
      calc scores.sum ≤ (scores.length : ℚ) * 100 := hsum
        _ = 100 * (outcomes.length : ℚ) := by rw [hlen]; ring
  have h0 : 0 ≤ overallScore outcomes := by
    rw [hov]
    have h1 : 0 ≤ scores.foldl max 0 * (3 / 5) := by positivity
    have h2 : 0 ≤ scores.sum / (outcomes.length : ℚ) * (2 / 5) := by positivity
    linarith
  have h100 : overallScore outcomes ≤ 100 := by
    rw [hov]
    linarith
  rcases round2_bounds h0 h100 with ⟨hr0, hr100⟩
  exact ⟨by rw [reportedOverallScore, hov], hr0, hr100⟩

/-- C5 witness: bounds evaluated on a run with one detector scoring 50 and
one raising an exception. -/
theorem overallScore_formula_bounds_witness :
    0 ≤ reportedOverallScore [Except.ok 50, Except.error ("boom")]
      ∧ reportedOverallScore [Except.ok 50, Except.error ("boom")] ≤ 100 :=
  (overallScore_formula_bounds [Except.ok 50, Except.error ("boom")]
    (by
      intro s hs
      simp only [List.mem_cons, List.not_mem_nil, or_false, Except.ok.injEq,
        reduceCtorEq] at hs
      subst hs
      norm_num)).2

theorem getRiskLevel_eq_unknown {q : ℚ}
    (h1 : ¬((0 : ℚ) ≤ q ∧ q ≤ 20)) (h2 : ¬((21 : ℚ) ≤ q ∧ q ≤ 40))
    (h3 : ¬((41 : ℚ) ≤ q ∧ q ≤ 60)) (h4 : ¬((61 : ℚ) ≤ q ∧ q ≤ 80))
    (h5 : ¬((81 : ℚ) ≤ q ∧ q ≤ 100)) : getRiskLevel q = "UNKNOWN" := by
  unfold getRiskLevel riskLevels
  simp only [List.find?, decide_eq_false h1, decide_eq_false h2,
    decide_eq_false h3, decide_eq_false h4, decide_eq_false h5]

/-- C8 counterexample: the non-integer score 20.5 (reachable by the overall
score formula) is assigned to none of the five bands: the lookup returns
UNKNOWN, which is not one of the five band labels. -/
theorem riskLevel_bands_counterexample :
    getRiskLevel (41 / 2) = "UNKNOWN"
      ∧ "UNKNOWN" ≠ "LOW_RISK" ∧ "UNKNOWN" ≠ "MEDIUM_RISK" ∧ "UNKNOWN" ≠ "HIGH_RISK"
      ∧ "UNKNOWN" ≠ "VERY_HIGH_RISK" ∧ "UNKNOWN" ≠ "CRITICAL_RISK"
      ∧ riskLevels.countP
          (fun b => decide (b.1.1 ≤ (41 / 2 : ℚ) ∧ (41 / 2 : ℚ) ≤ b.1.2)) = 0 := by
  refine ⟨?_, by decide, by decide, by decide, by decide, by decide, ?_⟩
  · norm_num [getRiskLevel, riskLevels, List.find?]
  · norm_num [riskLevels, List.countP_cons, List.countP_nil]

/-- C8 (amended): every integer score from 0 to 100 is contained in exactly
one of the five closed bands of the risk table, and the boundary values map
as stated: 20 to LOW_RISK, 21 to MEDIUM_RISK, 60 to HIGH_RISK, 61 to
VERY_HIGH_RISK, 80 to VERY_HIGH_RISK and 81 to CRITICAL_RISK.  (A
non-integer score strictly between two adjacent bands is contained in none
of them.) -/
theorem riskLevel_bands_integer (n : ℕ) (h : n ≤ 100) :
    riskLevels.countP (fun b => decide (b.1.1 ≤ (n : ℚ) ∧ (n : ℚ) ≤ b.1.2)) = 1
      ∧ getRiskLevel 20 = "LOW_RISK" ∧ getRiskLevel 21 = "MEDIUM_RISK"
      ∧ getRiskLevel 60 = "HIGH_RISK" ∧ getRiskLevel 61 = "VERY_HIGH_RISK"
      ∧ getRiskLevel 80 = "VERY_HIGH_RISK" ∧ getRiskLevel 81 = "CRITICAL_RISK" := by
  refine ⟨?_, ?_, ?_, ?_, ?_, ?_, ?_⟩
  · have hd : ∀ m : ℕ, m < 101 →
        riskLevels.countP (fun b => decide (b.1.1 ≤ (m : ℚ) ∧ (m : ℚ) ≤ b.1.2)) = 1 := by
      decide
    exact hd n (by omega)
  all_goals norm_num [getRiskLevel, riskLevels, List.find?]

/-- C8 witness: the amended statement evaluated at the boundary score 20. -/
theorem riskLevel_bands_integer_witness :
    riskLevels.countP (fun b => decide (b.1.1 ≤ ((20 : ℕ) : ℚ) ∧ ((20 : ℕ) : ℚ) ≤ b.1.2)) = 1
      ∧ getRiskLevel 20 = "LOW_RISK" ∧ getRiskLevel 21 = "MEDIUM_RISK"
      ∧ getRiskLevel 60 = "HIGH_RISK" ∧ getRiskLevel 61 = "VERY_HIGH_RISK"
      ∧ getRiskLevel 80 = "VERY_HIGH_RISK" ∧ getRiskLevel 81 = "CRITICAL_RISK" :=
  riskLevel_bands_integer 20 (by norm_num)

/-- C10: any score lying strictly inside one of the four gaps between
adjacent risk bands is mapped to the string UNKNOWN, and the overall risk of
an analysis run can indeed be UNKNOWN: six detectors scoring 31, 0, 0, 0, 0,
0 give an overall score of 62/3, inside the first gap. -/
theorem riskLevel_gap_unknown :
    (∀ q : ℚ,
        (20 < q ∧ q < 21) ∨ (40 < q ∧ q < 41) ∨ (60 < q ∧ q < 61) ∨ (80 < q ∧ q < 81) →
          getRiskLevel q = "UNKNOWN")
      ∧ overallRisk [Except.ok 31, Except.ok 0, Except.ok 0,
          Except.ok 0, Except.ok 0, Except.ok 0] = "UNKNOWN" := by
  constructor
  · intro q hq
    apply getRiskLevel_eq_unknown <;>
      (rintro ⟨ha, hb⟩
       rcases hq with ⟨h1, h2⟩ | ⟨h1, h2⟩ | ⟨h1, h2⟩ | ⟨h1, h2⟩ <;> linarith)
  · norm_num [overallRisk, overallScore, avgScore, analyzeFold, steStep,
      getRiskLevel, riskLevels, List.find?, List.foldl]

/-- C10 witness: the gap statement evaluated at the score 20.5. -/
theorem riskLevel_gap_unknown_witness : getRiskLevel (41 / 2) = "UNKNOWN" :=
  riskLevel_gap_unknown.1 (41 / 2) (Or.inl ⟨by norm_num, by norm_num⟩)

/-- Decimal rendering of a natural number, as produced by Python `str`:
most significant digit first, and 0 rendered as the single digit 0. -/
def natDecimal (n : ℕ) : List Char :=
  if n = 0 then ['0'] else ((Nat.digits 10 n).map Nat.digitChar).reverse

/-- Decimal rendering of an integer, as produced by Python `str`: a leading
minus sign for negative values. -/
def intDecimal (i : ℤ) : List Char :=
  if i < 0 then '-' :: natDecimal i.natAbs else natDecimal i.toNat

theorem digitChar_inj_lt10 :
    ∀ a : ℕ, a < 10 → ∀ b : ℕ, b < 10 → Nat.digitChar a = Nat.digitChar b → a = b := by
  decide

theorem digitChar_ne_dash : ∀ d : ℕ, d < 10 → Nat.digitChar d ≠ '-' := by
  decide

theorem map_digitChar_inj :
    ∀ {l1 l2 : List ℕ}, (∀ d ∈ l1, d < 10) → (∀ d ∈ l2, d < 10) →
      l1.map Nat.digitChar = l2.map Nat.digitChar → l1 = l2 := by
  intro l1
  induction l1 with
  | nil =>
      intro l2 _ _ h
      cases l2 with
      | nil => rfl
      | cons b t2 => simp at h
  | cons a t ih =>
      intro l2 h1 h2 h
      cases l2 with
      | nil => simp at h
      | cons b t2 =>
          simp only [List.map_cons, List.cons.injEq] at h
          have hab : a = b :=
            digitChar_inj_lt10 a (h1 a (List.mem_cons_self a t))
              b (h2 b (List.mem_cons_self b t2)) h.1
          rw [hab,
            ih (fun d hd => h1 d (List.mem_cons_of_mem a hd))
              (fun d hd => h2 d (List.mem_cons_of_mem b hd)) h.2]

theorem natDecimal_eq_zero_iff {n : ℕ} : natDecimal n = ['0'] ↔ n = 0 := by
  constructor
  · intro h
    by_contra hn
    rw [natDecimal, if_neg hn] at h
    have hmap : (Nat.digits 10 n).map Nat.digitChar = ['0'] :=
      List.reverse_injective (by rw [h]; rfl)
    cases hd : Nat.digits 10 n with
    | nil => rw [hd] at hmap; simp at hmap
    | cons d t =>
        rw [hd] at hmap
        simp only [List.map_cons, List.cons.injEq, List.map_eq_nil_iff] at hmap
        have hd10 : d < 10 :=
          Nat.digits_lt_base (by norm_num) (hd ▸ List.mem_cons_self d t)
        have hd0 : d = 0 :=
          digitChar_inj_lt10 d hd10 0 (by norm_num) (by rw [hmap.1]; rfl)
        have hofd := Nat.ofDigits_digits 10 n
        rw [hd, hmap.2, hd0] at hofd
        simp [Nat.ofDigits] at hofd
        exact hn hofd.symm
  · intro h
    rw [h, natDecimal, if_pos rfl]

theorem natDecimal_ne_dash (n : ℕ) (l : List Char) : natDecimal n ≠ '-' :: l := by
  intro h
  rw [natDecimal] at h
  split_ifs at h
  · simp at h
  · have hm : '-' ∈ ((Nat.digits 10 n).map Nat.digitChar).reverse :=
      h ▸ List.mem_cons_self '-' l
    rw [List.mem_reverse] at hm
    rcases List.mem_map.mp hm with ⟨d, hd, hdc⟩
    exact digitChar_ne_dash d (Nat.digits_lt_base (by norm_num) hd) hdc

theorem natDecimal_inj {m n : ℕ} (h : natDecimal m = natDecimal n) : m = n := by
  by_cases hm : m = 0
  · subst hm
    rw [show natDecimal 0 = ['0'] from rfl] at h
    exact (natDecimal_eq_zero_iff.mp h.symm).symm
  · by_cases hn : n = 0
    · subst hn
      rw [show natDecimal 0 = ['0'] from rfl] at h
      exact natDecimal_eq_zero_iff.mp h
    · rw [natDecimal, if_neg hm, natDecimal, if_neg hn] at h
      have hmap : (Nat.digits 10 m).map Nat.digitChar = (Nat.digits 10 n).map Nat.digitChar :=
        List.reverse_injective h
      have hdig : Nat.digits 10 m = Nat.digits 10 n :=
        map_digitChar_inj (fun d hd => Nat.digits_lt_base (by norm_num) hd)
          (fun d hd => Nat.digits_lt_base (by norm_num) hd) hmap
      calc m = Nat.ofDigits 10 (Nat.digits 10 m) := (Nat.ofDigits_digits 10 m).symm
        _ = Nat.ofDigits 10 (Nat.digits 10 n) := by rw [hdig]
        _ = n := Nat.ofDigits_digits 10 n

theorem intDecimal_inj {i j : ℤ} (h : intDecimal i = intDecimal j) : i = j := by
  rw [intDecimal, intDecimal] at h
  split_ifs at h with hi hj hj
  · injection h with h1 h2
    have := natDecimal_inj h2
    omega
  · exact absurd h.symm (natDecimal_ne_dash j.toNat _)
  · exact absurd h (natDecimal_ne_dash i.toNat _)
  · have := natDecimal_inj h
    omega

/-- One `Finding` of the `contract_analyzer` module, with the fields the
deduplicator reads. -/
structure Finding where
  patternName : String
  description : String
  functionName : Option String
  lineNumber : ℤ
  codeSnippet : String
deriving DecidableEq

/-- One merged entry of `_merge_duplicate_findings` (a value of its
`merged_findings` dict): the fields of the first finding inserted under a
key, plus the grouped occurrence list. -/
structure MergedFinding where
  patternName : String
  description : String
  functionName : Option String
  occurrences : List (ℤ × String)
deriving DecidableEq

/-- The occurrence entry recorded for one finding: line number and snippet. -/
def occOf (f : Finding) : ℤ × String := (f.lineNumber, f.codeSnippet)

/-- The dict key of `_merge_duplicate_findings`: the Python f-string
`pattern_name : function_name or line_ line_number` (a string; modelled as
its character list). -/
def findingKey (f : Finding) : List Char :=
  f.patternName.data ++ ':' ::
    (match f.functionName with
     | some g => g.data
     | none => ("line_").data ++ intDecimal f.lineNumber)

/-- One iteration of the `_merge_duplicate_findings` loop: when the key is
already present, the matching entry gets one more occurrence appended;
otherwise a fresh entry is appended (Python dicts iterate in insertion
order, so the dict is modelled as an insertion-ordered association list). -/
def addFinding (acc : List (List Char × MergedFinding)) (f : Finding) :
    List (List Char × MergedFinding) :=
  if findingKey f ∈ acc.map Prod.fst then
    acc.map fun p =>
      if p.1 = findingKey f then
        (p.1, { p.2 with occurrences := p.2.occurrences ++ [occOf f] })
      else p
  else
    acc ++ [(findingKey f,
      { patternName := f.patternName, description := f.description,
        functionName := f.functionName, occurrences := [occOf f] })]

/-- Embedding of `ContractAnalyzer._merge_duplicate_findings`: fold the
findings through `addFinding` and return the dict values in order. -/
def mergeDuplicateFindings (fs : List Finding) : List MergedFinding :=
  (fs.foldl addFinding []).map Prod.snd

theorem mergeTwo_key_eq {f1 f2 : Finding} (h : findingKey f1 = findingKey f2) :
    mergeDuplicateFindings [f1, f2]
      = [{ patternName := f1.patternName, description := f1.description,
           functionName := f1.functionName, occurrences := [occOf f1, occOf f2] }] := by
  simp [mergeDuplicateFindings, addFinding, h]

theorem mergeTwo_key_ne {f1 f2 : Finding} (h : findingKey f1 ≠ findingKey f2) :
    mergeDuplicateFindings [f1, f2]
      = [{ patternName := f1.patternName, description := f1.description,
           functionName := f1.functionName, occurrences := [occOf f1] },
         { patternName := f2.patternName, description := f2.description,
           functionName := f2.functionName, occurrences := [occOf f2] }] := by
  simp [mergeDuplicateFindings, addFinding, Ne.symm h]

/-- C9: the deduplicator groups by (pattern label, enclosing function):
two hits of the same rule attributed to the same function collapse into one
finding whose occurrence list has both hits in order; two hits of the same
rule in two different functions stay two separate findings; and two hits of
the same rule with no attributable function are bucketed by their line
number, so hits on different un-attributable lines never merge. -/
theorem mergeDuplicateFindings_grouping (f1 f2 : Finding) :
    (∀ g : String, f1.functionName = some g → f2.functionName = some g →
        f1.patternName = f2.patternName →
        mergeDuplicateFindings [f1, f2]
          = [{ patternName := f1.patternName, description := f1.description,
               functionName := f1.functionName, occurrences := [occOf f1, occOf f2] }])
      ∧ (∀ g1 g2 : String, f1.functionName = some g1 → f2.functionName = some g2 →
          f1.patternName = f2.patternName → g1 ≠ g2 →
          mergeDuplicateFindings [f1, f2]
            = [{ patternName := f1.patternName, description := f1.description,
                 functionName := f1.functionName, occurrences := [occOf f1] },
               { patternName := f2.patternName, description := f2.description,
                 functionName := f2.functionName, occurrences := [occOf f2] }])
      ∧ (f1.functionName = none → f2.functionName = none →
          f1.patternName = f2.patternName → f1.lineNumber ≠ f2.lineNumber →
          mergeDuplicateFindings [f1, f2]
            = [{ patternName := f1.patternName, description := f1.description,
                 functionName := f1.functionName, occurrences := [occOf f1] },
               { patternName := f2.patternName, description := f2.description,
                 functionName := f2.functionName, occurrences := [occOf f2] }]) := by
  refine ⟨?_, ?_, ?_⟩
  · intro g hg1 hg2 hp
    apply mergeTwo_key_eq
    rw [findingKey, findingKey, hg1, hg2, hp]
  · intro g1 g2 hg1 hg2 hp hne
    apply mergeTwo_key_ne
    intro heq
    rw [findingKey, findingKey, hg1, hg2, hp] at heq
    have h2 := List.append_cancel_left heq
    injection h2 with h3 h4
    exact hne (String.ext h4)
  · intro hg1 hg2 hp hne
    apply mergeTwo_key_ne
    intro heq
    rw [findingKey, findingKey, hg1, hg2, hp] at heq
    have h2 := List.append_cancel_left heq
    injection h2 with h3 h4
    exact hne (intDecimal_inj (List.append_cancel_left h4))

/-- C9 witness: two hits of the same rule inside the same function collapse
into one finding with two occurrences. -/
theorem mergeDuplicateFindings_grouping_witness :
    mergeDuplicateFindings
        [{ patternName := "HiddenMint", description := "d", functionName := some "transfer",
           lineNumber := 10, codeSnippet := "s1" },
         { patternName := "HiddenMint", description := "d2", functionName := some "transfer",
           lineNumber := 20, codeSnippet := "s2" }]
      = [{ patternName := "HiddenMint", description := "d", functionName := some "transfer",
           occurrences := [(10, "s1"), (20, "s2")] }] :=
  (mergeDuplicateFindings_grouping _ _).1 "transfer" rfl rfl rfl

/-- C1 (code bug): the resolver reports a wrong line number even when no
comment interferes.  On the LF-terminated source consisting of the lines
abc and def, with no comments at all (preprocessing is the identity), the
match at offsets 4..7 (the word def, on line 2) resolves through the strict
context search, yet the `STE0101_1` formula counts only CRLF sequences and
reports line 1.  Dually, the `STE0104` formula counts LF plus CRLF and reports
line 5 for an offset on line 3 of a CRLF-terminated source. -/
theorem resolveLine_wrong_line :
    preprocessCode ("abc\ndef\n".toList) = ("abc\ndef\n".toList)
      ∧ resolveLine ("abc\ndef\n".toList) ("abc\ndef\n".toList) 4 7 = 1
      ∧ trueLineAt ("abc\ndef\n".toList) 4 = 2
      ∧ lineNumber0104 (("a\r\nb\r\nc".toList).take 6) = 5
      ∧ trueLineAt ("a\r\nb\r\nc".toList) 6 = 3 :=
  ⟨by decide, by decide, by decide, by decide, by decide⟩

/-- C2 (code bug): removing a block comment that spans lines also removes
the line breaks inside it, so the comment-stripped text has fewer lines
than the input: a four-line input becomes three lines. -/
theorem preprocess_merges_lines :
    preprocessCode ("a\n/*x\ny*/\nb".toList) = ("a\n\nb".toList)
      ∧ lineCount ("a\n/*x\ny*/\nb".toList) = 4
      ∧ lineCount ("a\n\nb".toList) = 3 :=
  ⟨by decide, by decide, by decide⟩

/-- C3 counterexample: on an input with an unterminated block comment the
normalizer does not remove the text from the opening delimiter to
end-of-input; it returns the input unchanged. -/
theorem preprocess_unterminated_counterexample :
    preprocessCode ("a /* b".toList) = ("a /* b".toList)
      ∧ preprocessCode ("a /* b".toList) ≠ ("a ".toList) :=
  ⟨by decide, by decide⟩


/-- C4 witness: a run with one detector returning 50 and one raising still
records both reports, the raising one with score 0 and its message. -/
theorem detectorFailure_isolated_witness :
    steResults [Except.ok 50, Except.error ("boom")]
      = [{ score := 50, errMsg := none }, { score := 0, errMsg := some ("boom") }] := by
  rw [(detectorFailure_isolated [Except.ok 50, Except.error ("boom")]).1]
  rfl

theorem afterClose_some_length :
    ∀ (s s' : List Char), afterClose s = some s' → s'.length + 2 ≤ s.length := by
  intro s
  induction s with
  | nil => intro s' h; simp [afterClose] at h
  | cons a u ih =>
      intro s' h
      cases u with
      | nil => simp [afterClose] at h
      | cons b v =>
          rw [afterClose] at h
          split at h
          · injection h with h3
            subst h3
            simp
          · have h2 := ih s' h
            simp only [List.length_cons] at h2 ⊢
            omega

theorem afterClose_isSuffix :
    ∀ (s s' : List Char), afterClose s = some s' → s' <:+ s := by
  intro s
  induction s with
  | nil => intro s' h; simp [afterClose] at h
  | cons a u ih =>
      intro s' h
      cases u with
      | nil => simp [afterClose] at h
      | cons b v =>
          rw [afterClose] at h
          split at h
          · injection h with h3
            subst h3
            exact ⟨[a, b], rfl⟩
          · exact (ih s' h).trans ⟨[a], rfl⟩

theorem getLast?_of_isSuffix {s s' : List Char} (h : s' <:+ s) (hne : s' ≠ []) :
    s.getLast? = s'.getLast? := by
  obtain ⟨w, rfl⟩ := h
  exact List.getLast?_append_of_ne_nil w hne

theorem sbcFuel_nil : ∀ fuel : Nat, sbcFuel fuel [] = [] := by
  intro fuel
  cases fuel <;> rfl

theorem sbcFuel_single : ∀ (fuel : Nat) (c : Char), sbcFuel fuel [c] = [c] := by
  intro fuel c
  cases fuel <;> rfl

theorem sbcFuel_fuel_irrel :
    ∀ (fuel1 : Nat) (s : List Char) (fuel2 : Nat),
      s.length ≤ fuel1 → s.length ≤ fuel2 → sbcFuel fuel1 s = sbcFuel fuel2 s := by
  intro fuel1
  induction fuel1 with
  | zero =>
      intro s fuel2 h1 _
      have hs : s = [] := List.eq_nil_of_length_eq_zero (Nat.le_zero.mp h1)
      subst hs
      rw [sbcFuel_nil, sbcFuel_nil]
  | succ f ih =>
      intro s fuel2 h1 h2
      match s with
      | [] => rw [sbcFuel_nil, sbcFuel_nil]
      | [c] => rw [sbcFuel_single, sbcFuel_single]
      | a :: b :: v =>
          simp only [List.length_cons] at h1 h2
          cases fuel2 with
          | zero => omega
          | succ f2 =>
              rw [sbcFuel, sbcFuel]
              by_cases hab : a = '/' ∧ b = '*'
              · rw [if_pos hab, if_pos hab]
                cases hac : afterClose v with
                | some v2 =>
                    simp only [hac]
                    have hlen := afterClose_some_length v v2 hac
                    exact ih v2 f2 (by omega) (by omega)
                | none =>
                    simp only [hac]
                    rw [ih (b :: v) f2 (by simp only [List.length_cons]; omega)
                      (by simp only [List.length_cons]; omega)]
              · rw [if_neg hab, if_neg hab]
                rw [ih (b :: v) f2 (by simp only [List.length_cons]; omega)
                  (by simp only [List.length_cons]; omega)]

theorem afterClose_append_none :
    ∀ (s t2 : List Char), afterClose t2 = none →
      (s.getLast? = some '*' → t2.head? ≠ some '/') → afterClose s = none →
      afterClose (s ++ t2) = none := by
  intro s
  induction s with
  | nil =>
      intro t2 h2 _ _
      simpa using h2
  | cons a u ih =>
      intro t2 h2 hseam hs
      cases u with
      | nil =>
          cases t2 with
          | nil => simpa using hs
          | cons b w =>
              have hcond : ¬(a = '*' ∧ b = '/') := by
                rintro ⟨ha, hb⟩
                exact hseam (by rw [ha]; rfl) (by rw [hb]; rfl)
              simp only [List.cons_append, List.nil_append]
              rw [afterClose, if_neg hcond]
              exact h2
      | cons b v =>
          have hnc : ¬(a = '*' ∧ b = '/') := by
            intro hab
            rw [afterClose, if_pos hab] at hs
            exact Option.noConfusion hs
          have hs2 : afterClose (b :: v) = none := by
            rw [afterClose, if_neg hnc] at hs
            exact hs
          have hrec := ih t2 h2
            (fun h => hseam (by rw [List.getLast?_cons_cons]; exact h)) hs2
          simp only [List.cons_append] at hrec ⊢
          rw [afterClose, if_neg hnc]
          exact hrec

theorem afterClose_append_some :
    ∀ (s s' t2 : List Char), afterClose s = some s' →
      afterClose (s ++ t2) = some (s' ++ t2) := by
  intro s
  induction s with
  | nil => intro s' t2 h; simp [afterClose] at h
  | cons a u ih =>
      intro s' t2 h
      cases u with
      | nil => simp [afterClose] at h
      | cons b v =>
          by_cases hab : a = '*' ∧ b = '/'
          · rw [afterClose, if_pos hab] at h
            injection h with h3
            subst h3
            simp only [List.cons_append]
            rw [afterClose, if_pos hab]
          · rw [afterClose, if_neg hab] at h
            have hrec := ih s' t2 h
            simp only [List.cons_append] at hrec ⊢
            rw [afterClose, if_neg hab]
            exact hrec

theorem stripBlockComments_cons_cons (a b : Char) (v : List Char) :
    stripBlockComments (a :: b :: v)
      = if a = '/' ∧ b = '*' then
          match afterClose v with
          | some v2 => stripBlockComments v2
          | none => a :: stripBlockComments (b :: v)
        else a :: stripBlockComments (b :: v) := by
  show sbcFuel (v.length + 1 + 1) (a :: b :: v) = _
  rw [sbcFuel]
  by_cases hab : a = '/' ∧ b = '*'
  · rw [if_pos hab, if_pos hab]
    cases hac : afterClose v with
    | some v2 =>
        simp only [hac]
        have hlen := afterClose_some_length v v2 hac
        exact sbcFuel_fuel_irrel (v.length + 1) v2 v2.length (by omega) (le_refl _)
    | none =>
        simp only [hac]
        rfl
  · rw [if_neg hab, if_neg hab]
    rfl

theorem sbcFuel_append_unterminated (t2 : List Char) (h2 : afterClose t2 = none) :
    ∀ (fuel : Nat) (s : List Char), (s ++ t2).length ≤ fuel →
      (s.getLast? = some '*' → t2.head? ≠ some '/') →
      sbcFuel fuel (s ++ t2) = stripBlockComments s ++ t2 := by
  intro fuel
  induction fuel with
  | zero =>
      intro s hlen _
      simp only [List.length_append] at hlen
      have hs : s = [] := List.eq_nil_of_length_eq_zero (by omega)
      have ht : t2 = [] := List.eq_nil_of_length_eq_zero (by omega)
      subst hs
      subst ht
      rfl
  | succ f ih =>
      intro s hlen hseam
      match s with
      | [] =>
          simp only [List.nil_append]
          rw [sbcFuel_of_no_close (f + 1) t2 h2]
          rfl
      | [a] =>
          cases t2 with
          | nil =>
              show sbcFuel (f + 1) ([a] ++ []) = stripBlockComments [a] ++ []
              simp only [List.append_nil]
              rw [sbcFuel_single]
              rfl
          | cons b w =>
              simp only [List.cons_append, List.nil_append]
              rw [sbcFuel]
              by_cases hab : a = '/' ∧ b = '*'
              · rw [if_pos hab]
                have hw : afterClose w = none := afterClose_cons_none h2
                simp only [hw]
                rw [sbcFuel_of_no_close f (b :: w) h2]
                rfl
              · rw [if_neg hab]
                rw [sbcFuel_of_no_close f (b :: w) h2]
                rfl
      | a :: b :: v =>
          simp only [List.cons_append]
          rw [sbcFuel, stripBlockComments_cons_cons]
          by_cases hab : a = '/' ∧ b = '*'
          · rw [if_pos hab, if_pos hab]
            cases hac : afterClose v with
            | some v2 =>
                have hac2 : afterClose (v ++ t2) = some (v2 ++ t2) :=
                  afterClose_append_some v v2 t2 hac
                simp only [hac, hac2]
                have hlen2 := afterClose_some_length v v2 hac
                have hseam2 : v2.getLast? = some '*' → t2.head? ≠ some '/' := by
                  intro hv2
                  apply hseam
                  have hne : v2 ≠ [] := by
                    intro h3
                    rw [h3] at hv2
                    simp at hv2
                  have hsfx : v2 <:+ (a :: b :: v) :=
                    (afterClose_isSuffix v v2 hac).trans ⟨[a, b], rfl⟩
                  rw [getLast?_of_isSuffix hsfx hne]
                  exact hv2
                exact ih v2
                  (by simp only [List.length_append, List.length_cons] at hlen ⊢; omega)
                  hseam2
            | none =>
                have hseamv : v.getLast? = some '*' → t2.head? ≠ some '/' := by
                  intro hv
                  apply hseam
                  have hne : v ≠ [] := by
                    intro h3
                    rw [h3] at hv
                    simp at hv
                  rw [getLast?_of_isSuffix (⟨[a, b], rfl⟩ : v <:+ (a :: b :: v)) hne]
                  exact hv
                have hac2 : afterClose (v ++ t2) = none :=
                  afterClose_append_none v t2 h2 hseamv hac
                simp only [hac, hac2]
                have hrec := ih (b :: v)
                  (by simp only [List.length_append, List.length_cons] at hlen ⊢; omega)
                  (fun h => hseam (by rw [List.getLast?_cons_cons]; exact h))
                simp only [List.cons_append] at hrec
                rw [hrec]
                rfl
          · rw [if_neg hab, if_neg hab]
            have hrec := ih (b :: v)
              (by simp only [List.length_append, List.length_cons] at hlen ⊢; omega)
              (fun h => hseam (by rw [List.getLast?_cons_cons]; exact h))
            simp only [List.cons_append] at hrec
            rw [hrec]
            rfl

/-- C3 (amended): on every input whose line-comment-stripped text contains an
unterminated block comment - it splits as a prefix, then an opening
delimiter, then a remainder `r`, with no closing delimiter occurring at or
after that opening delimiter and none straddling the split point - the
normalizer still strips the earlier, terminated comments of the prefix as
usual, but removes nothing from the unterminated opening delimiter onward:
that delimiter and everything after it appear in the output verbatim, and no
exception is raised (the normalizer is a total function). -/
theorem preprocess_unterminated_left_in_place (l t1 r : List Char)
    (hsplit : stripLineComments l = t1 ++ '/' :: '*' :: r)
    (hnoclose : afterClose ('/' :: '*' :: r) = none)
    (hseam : t1.getLast? ≠ some '*') :
    preprocessCode l = stripBlockComments t1 ++ '/' :: '*' :: r := by
  rw [preprocessCode, hsplit, stripBlockComments]
  exact sbcFuel_append_unterminated ('/' :: '*' :: r) hnoclose
    (t1 ++ '/' :: '*' :: r).length t1 (le_refl _) (fun h => absurd h hseam)

/-- C3 witness: the amended statement on an input mixing a terminated block
comment with an unterminated one: the terminated comment is stripped, the
unterminated tail survives verbatim. -/
theorem preprocess_unterminated_left_in_place_witness :
    preprocessCode ("/*a*/ x /* y".toList)
      = stripBlockComments ("/*a*/ x ".toList) ++ '/' :: '*' :: (" y".toList) :=
  preprocess_unterminated_left_in_place ("/*a*/ x /* y".toList)
    ("/*a*/ x ".toList) (" y".toList) (by decide) (by decide) (by decide)

example : preprocessCode ("/*a*/ x /* y".toList) = (" x /* y".toList) := by decide
